import Mathlib

/-!
# Verification of the 2048 bitboard engine and expectimax search

Shallow embedding of `bitboard_2048.py` and `ai_player.py` (the bitboard
move engine, the row-transform table generator, the board codec, the grid
reference implementation, the heuristic evaluator and the expectimax
search), together with proofs and refutations of the specified properties.

Modelling conventions:
* Python unbounded non-negative integers are `Nat`; `>>`, `<<`, `&`, `|`
  are `>>>`, `<<<`, `&&&`, `|||` on `Nat`.
* Python floats are modelled as exact rationals `ℚ`.  All tile values on
  decoded boards are powers of two, for which `math.log2` is exact, and the
  weight constants become exact rationals (`0.1 ↦ 1/10` etc.);
  `float('-inf')` sentinels become `Option ℚ` with `none` for `-inf`.
* The process-global mutable transposition table (a Python dict) is
  threaded explicitly as an association list `Table`; `dict[bb] = v`
  becomes consing `(bb, v)` (lookup finds the newest binding).
* The ambient randomness of `random.sample(empty_positions, 6)` is
  modelled by an explicit sampler parameter `smp : List Nat → List Nat`
  whose output is truncated to 6 entries; every possible behaviour of
  `random.sample` is some such sampler.
-/

set_option maxRecDepth 2000

namespace G2048

/-- Helper for `pyBitLength`: the number of binary digits of `n`, by
structural recursion on a fuel argument (so that the kernel can evaluate
it); the fuel only needs to dominate the number of halvings. -/
def bitLenFuel : Nat → Nat → Nat
  | 0, _ => 0
  | fuel + 1, n => if n = 0 then 0 else bitLenFuel fuel (n / 2) + 1

/-- Python `int.bit_length()` for non-negative integers: the number of
binary digits, `0` for `0` (`n` itself dominates the number of halvings). -/
def pyBitLength (n : Nat) : Nat := bitLenFuel n n

/-- Nibble extraction, `(bb >> (4 * p)) & 0xF`: the 4-bit exponent stored
for cell `p` of a bitboard (also used for 16-bit row values). -/
def nib (bb p : Nat) : Nat := (bb >>> (4 * p)) &&& 0xF

/-- `bitboard_2048._generate_row_tables`:
`tiles = [(row_val >> (4 * i)) & 0xF for i in range(4)]`. -/
def tiles4 (v : Nat) : List Nat := (List.range 4).map fun i => (v >>> (4 * i)) &&& 0xF

/-- `actual_values = [0 if t == 0 else (1 << t) for t in tiles]`. -/
def actualValues (ts : List Nat) : List Nat := ts.map fun t => if t = 0 then 0 else 1 <<< t

/-- One state of the merge loop `while idx < len(filtered)` shared
verbatim by `_generate_row_tables` (bitboard_2048.py) and
`_apply_collapse_line` (ai_player.py): `a` is `filtered[idx]`, the list
argument is the values after it.  A merge appends `a * 2`, adds it to the
gained score and advances past both operands; otherwise `a` is appended
and the loop advances one step. -/
def collapseGo (a : Nat) : List Nat → List Nat × Nat
  | [] => ([a], 0)
  | b :: rest =>
    if a = b then
      match rest with
      | [] => ([a * 2], a * 2)
      | c :: rest2 =>
        let r := collapseGo c rest2
        (a * 2 :: r.1, a * 2 + r.2)
    else
      let r := collapseGo b rest
      (a :: r.1, r.2)

/-- The full merge loop on the filtered (nonzero) values: merged values
(unpadded) and gained score. -/
def collapseLoop : List Nat → List Nat × Nat
  | [] => ([], 0)
  | a :: rest => collapseGo a rest

/-- `sum(ts[3 - i] << (4 * i) for i in range(4))`: reverse a 4-entry nibble
list back into a 16-bit row value, as done three times in
`_generate_row_tables` / `move_right`. -/
def reverseEncode (ts : List Nat) : Nat :=
  (List.range 4).foldl (fun acc i => acc + (ts.getD (3 - i) 0) <<< (4 * i)) 0

/-- Reverse the four nibbles of a 16-bit row value. -/
def revRow (v : Nat) : Nat := reverseEncode (tiles4 v)

/-- Entry `v` of `ROW_LEFT_TABLE`: decode the four nibbles to tile values,
run the left-collapse merge loop, pad with zeros and re-encode each
positive value's exponent (`val.bit_length() - 1`) into its nibble slot
with `|=`. -/
def ROW_LEFT_TABLE (v : Nat) : Nat :=
  let tiles := tiles4 v
  let vals := actualValues tiles
  let filtered := vals.filter (· ≠ 0)
  let merged0 := (collapseLoop filtered).1
  let merged := merged0 ++ List.replicate (4 - merged0.length) 0
  (List.range 4).foldl
    (fun acc i =>
      let val := merged.getD i 0
      if 0 < val then acc ||| ((pyBitLength val - 1) <<< (4 * i)) else acc) 0

/-- Entry `v` of `SCORE_TABLE`: the gained score accumulated by the merge
loop on the decoded row. -/
def SCORE_TABLE (v : Nat) : Nat :=
  let tiles := tiles4 v
  let vals := actualValues tiles
  let filtered := vals.filter (· ≠ 0)
  (collapseLoop filtered).2

/-- Entry `v` of `ROW_RIGHT_TABLE`.  The generation loop fills the tables
in increasing index order and, while processing index `v`, reads
`row_left_table[reversed_row_val]` from the *partially built* left table:
indices `≤ v` already hold their final value (index `v` itself is written
just before this read), larger indices still hold the initial `0`.  The
`if reversedRowVal ≤ v` below models exactly that loop state. -/
def ROW_RIGHT_TABLE (v : Nat) : Nat :=
  let tiles := tiles4 v
  let reversedRowVal := reverseEncode tiles
  let rightResultReversed := if reversedRowVal ≤ v then ROW_LEFT_TABLE reversedRowVal else 0
  revRow rightResultReversed

/-- `board_to_bitboard`: OR each nonzero cell's exponent
(`val.bit_length() - 1`) into its nibble; the two nested `for` loops over
`row`/`col` are flattened into the single row-major index `p = 4*row+col`. -/
def board_to_bitboard (board : List (List Nat)) : Nat :=
  (List.range 16).foldl
    (fun bb p =>
      let val := (board.getD (p / 4) []).getD (p % 4) 0
      if 0 < val then bb ||| ((pyBitLength val - 1) <<< (4 * p)) else bb) 0

/-- `bitboard_to_board`: cell `(row, col)` is `1 << exp` when the nibble
`exp` at `4*(row*4+col)` is positive, else `0`. -/
def bitboard_to_board (bb : Nat) : List (List Nat) :=
  (List.range 4).map fun row =>
    (List.range 4).map fun col =>
      let e := (bb >>> (4 * (row * 4 + col))) &&& 0xF
      if 0 < e then 1 <<< e else 0

/-- `_transpose`: the two-stage masked-shift bit transpose. -/
def _transpose (bb : Nat) : Nat :=
  let a1 := bb &&& 0xF0F00F0FF0F00F0F
  let a2 := bb &&& 0x0000F0F00000F0F0
  let a3 := bb &&& 0x0F0F00000F0F0000
  let a := a1 ||| (a2 <<< 12) ||| (a3 >>> 12)
  let b1 := a &&& 0xFF00FF0000FF00FF
  let b2 := a &&& 0x00FF00FF00000000
  let b3 := a &&& 0x00000000FF00FF00
  b1 ||| (b2 >>> 24) ||| (b3 <<< 24)

/-- `move_left`: per 16-bit row, look up the left table and the score
table, OR the new row back in place and sum the scores. -/
def move_left (bb : Nat) : Nat × Nat :=
  (List.range 4).foldl
    (fun acc row =>
      let rowVal := (bb >>> (16 * row)) &&& 0xFFFF
      (acc.1 ||| (ROW_LEFT_TABLE rowVal <<< (16 * row)), acc.2 + SCORE_TABLE rowVal))
    (0, 0)

/-- `move_right`: per row, look up the right table; the score is the left
score of the nibble-reversed row. -/
def move_right (bb : Nat) : Nat × Nat :=
  (List.range 4).foldl
    (fun acc row =>
      let rowVal := (bb >>> (16 * row)) &&& 0xFFFF
      let reversedRowVal := reverseEncode (tiles4 rowVal)
      (acc.1 ||| (ROW_RIGHT_TABLE rowVal <<< (16 * row)), acc.2 + SCORE_TABLE reversedRowVal))
    (0, 0)

/-- `move_up = transpose ∘ move_left ∘ transpose`. -/
def move_up (bb : Nat) : Nat × Nat :=
  let moved := move_left (_transpose bb)
  (_transpose moved.1, moved.2)

/-- `move_down = transpose ∘ move_right ∘ transpose`. -/
def move_down (bb : Nat) : Nat × Nat :=
  let moved := move_right (_transpose bb)
  (_transpose moved.1, moved.2)

/-- `get_empty_positions`: positions `0‥15` with a zero nibble, ascending. -/
def get_empty_positions (bb : Nat) : List Nat :=
  (List.range 16).filter fun pos => (bb >>> (4 * pos)) &&& 0xF = 0

/-- `count_empty`. -/
def count_empty (bb : Nat) : Nat :=
  (List.range 16).foldl (fun c pos => if (bb >>> (4 * pos)) &&& 0xF = 0 then c + 1 else c) 0

/-- `add_tile`. -/
def add_tile (bb position exp_value : Nat) : Nat := bb ||| (exp_value <<< (4 * position))

/-- `is_move_valid`: `True` iff the move changes the board; unrecognized
direction strings raise `ValueError` (modelled with `Except`). -/
def is_move_valid (bb : Nat) (direction : String) : Except String Bool :=
  if direction = "left" then .ok (decide ((move_left bb).1 ≠ bb))
  else if direction = "right" then .ok (decide ((move_right bb).1 ≠ bb))
  else if direction = "up" then .ok (decide ((move_up bb).1 ≠ bb))
  else if direction = "down" then .ok (decide ((move_down bb).1 ≠ bb))
  else .error ("Invalid direction: " ++ direction)

/-- Collapse the `Except` of `is_move_valid` to its boolean; the error case
is unreachable for the four literal directions used by `is_game_over`. -/
def exceptTrue : Except String Bool → Bool
  | .ok b => b
  | .error _ => false

/-- `is_game_over`: boards with an empty cell are not over; otherwise the
four directions are tried in source order with an early `False` return. -/
def is_game_over (bb : Nat) : Bool :=
  if 0 < count_empty bb then false
  else !(["left", "right", "up", "down"].any fun d => exceptTrue (is_move_valid bb d))

/-! ## `ai_player.py`: grid reference implementation -/

/-- Cell access `board[r][c]` (out-of-range reads never occur on the 4×4
boards the claims quantify over). -/
def gget (board : List (List Nat)) (r c : Nat) : Nat := (board.getD r []).getD c 0

/-- `_apply_collapse_line`: filter out zeros, run the (shared) merge loop,
pad back to the line's length. -/
def _apply_collapse_line (line : List Nat) : List Nat × Nat :=
  let filtered := line.filter (· ≠ 0)
  let (merged0, gained) := collapseLoop filtered
  (merged0 ++ List.replicate (line.length - merged0.length) 0, gained)

/-- The line at index `idx` that `apply_move_board` feeds to
`_apply_collapse_line`: row `idx` for horizontal moves, column `idx` for
vertical ones, reversed for `right`/`down`. -/
def extractLine (board : List (List Nat)) (direction : String) (idx : Nat) : List Nat :=
  let size := board.length
  let line :=
    if direction = "left" ∨ direction = "right" then board.getD idx []
    else (List.range size).map fun r => gget board r idx
  if direction = "right" ∨ direction = "down" then line.reverse else line

/-- The collapsed line for index `idx`, re-reversed for `right`/`down`. -/
def collapsedLine (board : List (List Nat)) (direction : String) (idx : Nat) : List Nat :=
  let collapsed := (_apply_collapse_line (extractLine board direction idx)).1
  if direction = "right" ∨ direction = "down" then collapsed.reverse else collapsed

/-- `apply_move_board`: returns `(new_board, moved, gained)`.  The Python
loop builds `new_board` by mutating rows (horizontal) or columns
(vertical); each index is independent, so the functional translation
assembles the same board from `collapsedLine`, sets `moved` iff some
re-oriented collapsed line differs from the original, and sums the gains. -/
def apply_move_board (board : List (List Nat)) (direction : String) :
    List (List Nat) × Bool × Nat :=
  let size := board.length
  let newBoard :=
    if direction = "left" ∨ direction = "right" then
      (List.range size).map fun idx => collapsedLine board direction idx
    else
      (List.range size).map fun r =>
        (List.range size).map fun idx => (collapsedLine board direction idx).getD r 0
  let moved :=
    if direction = "left" ∨ direction = "right" then
      (List.range size).any fun idx => collapsedLine board direction idx ≠ board.getD idx []
    else
      (List.range size).any fun idx =>
        collapsedLine board direction idx ≠ (List.range size).map fun r => gget board r idx
  let gained :=
    (List.range size).foldl
      (fun g idx => g + (_apply_collapse_line (extractLine board direction idx)).2) 0
  (newBoard, moved, gained)

/-! ## `ai_player.py`: heuristic evaluator (exact-rational model of floats) -/

/-- `_log2`: `math.log2(v)` for `v > 0` else `0.0`.  On the power-of-two
tile values of decoded boards `math.log2` returns the exponent exactly,
which is the value's bit length minus one. -/
def _log2 (v : Nat) : ℚ := if 0 < v then ((pyBitLength v - 1 : Nat) : ℚ) else 0

/-- `_monotonicity`: per row and per column, sum of positive forward
differences vs positive backward differences of `log2` magnitudes, taking
the larger direction per line. -/
def _monotonicity (board : List (List Nat)) : ℚ :=
  let size := board.length
  let rowTotal :=
    (List.range size).foldl
      (fun total r =>
        let values := (board.getD r []).map _log2
        let id2 :=
          (List.range (size - 1)).foldl
            (fun (p : ℚ × ℚ) i =>
              let diff := values.getD i 0 - values.getD (i + 1) 0
              if 0 < diff then (p.1 + diff, p.2) else (p.1, p.2 + (-diff)))
            (0, 0)
        total + max id2.1 id2.2)
      0
  (List.range size).foldl
    (fun total c =>
      let values := (List.range size).map fun r => _log2 (gget board r c)
      let id2 :=
        (List.range (size - 1)).foldl
          (fun (p : ℚ × ℚ) i =>
            let diff := values.getD i 0 - values.getD (i + 1) 0
            if 0 < diff then (p.1 + diff, p.2) else (p.1, p.2 + (-diff)))
          (0, 0)
      total + max id2.1 id2.2)
    rowTotal

/-- `_smoothness`: subtract the absolute `log2` difference with the right
and bottom neighbours of every nonzero cell. -/
def _smoothness (board : List (List Nat)) : ℚ :=
  let size := board.length
  (List.range size).foldl
    (fun score r =>
      (List.range size).foldl
        (fun score c =>
          if gget board r c = 0 then score
          else
            let v := _log2 (gget board r c)
            let score1 :=
              if c + 1 < size ∧ gget board r (c + 1) ≠ 0 then
                score - |v - _log2 (gget board r (c + 1))|
              else score
            if r + 1 < size ∧ gget board (r + 1) c ≠ 0 then
              score1 - |v - _log2 (gget board (r + 1) c)|
            else score1)
        score)
    0

/-- `_max_tile_in_corner`: `1` iff the maximum tile sits in a corner.  The
Python `max` generator over all (non-negative) cells is the nested
`max`-fold from `0`. -/
def _max_tile_in_corner (board : List (List Nat)) : Nat :=
  let size := board.length
  let corners := [gget board 0 0, gget board 0 (size - 1),
                  gget board (size - 1) 0, gget board (size - 1) (size - 1)]
  let maxTile := board.foldl (fun m row => row.foldl max m) 0
  if maxTile ∈ corners then 1 else 0

/-- `_empty_cells`. -/
def _empty_cells (board : List (List Nat)) : Nat :=
  board.foldl (fun n row => n + row.countP (· = 0)) 0

/-- A weight set for `score_board`; missing-key `dict.get` fallbacks are
irrelevant once all four keys are present. -/
structure Weights where
  mono : ℚ
  smooth : ℚ
  corner : ℚ
  empty : ℚ
deriving DecidableEq

/-- The documented default weights `{1.0, 0.1, 2.0, 2.5}`. -/
def defaultWeights : Weights := ⟨1, 1 / 10, 2, 5 / 2⟩

/-- `score_board`: the weighted heuristic combination. -/
def score_board (board : List (List Nat)) (w : Weights) : ℚ :=
  w.mono * _monotonicity board + w.smooth * _smoothness board +
    w.corner * (_max_tile_in_corner board : ℚ) + w.empty * (_empty_cells board : ℚ)

/-- `score_board_from_bitboard`. -/
def score_board_from_bitboard (bb : Nat) (w : Weights) : ℚ :=
  score_board (bitboard_to_board bb) w

/-! ## `ai_player.py`: expectimax search -/

/-- The transposition table `_transposition_table : dict[int, float]`,
threaded explicitly.  Assignment conses; lookup takes the newest binding. -/
abbrev Table := List (Nat × ℚ)

/-- `max(max_score, total)` where `max_score` may still be `float('-inf')`
(`none`). -/
def omax (ms : Option ℚ) (v : ℚ) : Option ℚ :=
  some (match ms with
        | none => v
        | some m => max m v)

/-- `total_score > best_score` where `best_score` may be `float('-inf')`. -/
def gtOpt (v : ℚ) : Option ℚ → Bool
  | none => true
  | some b => decide (b < v)

/-- The leaf action repeated throughout `_expectimax_search`:
`score = score_board_from_bitboard(bb, weights);
_transposition_table[bb] = score; return score`. -/
def leafScore (w : Weights) (bb : Nat) (t : Table) : ℚ × Table :=
  let s := score_board_from_bitboard bb w
  (s, (bb, s) :: t)

/-- The CHANCE-node accumulation loop of `_expectimax_search`: for each
sampled position, recurse (`child`, the MAX node at `depth - 1`) on the
board with a `2` placed (probability weight `0.9`) and with a `4` placed
(weight `0.1`), forwarding `alpha` and threading the table. -/
def chanceAccumGo (child : Nat → Option ℚ → Table → ℚ × Table) (bb : Nat)
    (alpha : Option ℚ) : List Nat → Table → ℚ × Table
  | [], t => (0, t)
  | pos :: rest, t =>
    let r2 := child (add_tile bb pos 1) alpha t
    let r4 := child (add_tile bb pos 2) alpha r2.2
    let racc := chanceAccumGo child bb alpha rest r4.2
    ((9 / 10) * r2.1 + (1 / 10) * r4.1 + racc.1, racc.2)

/-- `_expectimax_search(bb, depth, is_max_node, alpha, weights)`, organized
by remaining depth: the MAX node at depth `d` recurses into the CHANCE
node at the same `d` (depth is not decremented on that edge) and the
CHANCE node at depth `d` recurses into the MAX node at `d - 1`, so the
search is the structural recursion on `depth` below, returning the pair
(MAX node function, CHANCE node function); each takes `(bb, alpha, t)`.

At depth `0` the guard `depth == 0 or is_game_over(bb)` always fires, so
both node kinds reduce to the cache lookup followed by the leaf
evaluation.  At depth `d + 1` that guard is just `is_game_over`.  `alpha`
(`Option ℚ`, `none` = `float('-inf')`) is received and forwarded but never
consulted.  The MAX branch unrolls the source loop over
`[move_up, move_down, move_left, move_right]`, threading the running
`max_score` (which starts at `-inf` and is what the source passes as the
`alpha` of each child) and the table; if no move changed the board the
leaf evaluation is the fallback.  The CHANCE branch enumerates the empty
positions, samples 6 of them through `smp` when there are more than 6,
accumulates via `chanceAccumGo` and divides by the number of sampled
positions. -/
def atDepth (w : Weights) (smp : List Nat → List Nat) :
    Nat → (Nat → Option ℚ → Table → ℚ × Table) × (Nat → Option ℚ → Table → ℚ × Table)
  | 0 =>
    (fun bb _ t =>
      match List.lookup bb t with
      | some v => (v, t)
      | none => leafScore w bb t,
     fun bb _ t =>
      match List.lookup bb t with
      | some v => (v, t)
      | none => leafScore w bb t)
  | d + 1 =>
    let maxPrev := (atDepth w smp d).1
    let chanceCur : Nat → Option ℚ → Table → ℚ × Table := fun bb alpha t =>
      match List.lookup bb t with
      | some v => (v, t)
      | none =>
        if is_game_over bb then leafScore w bb t
        else
          let empty_positions := get_empty_positions bb
          if empty_positions.isEmpty then leafScore w bb t
          else
            let sample_positions :=
              if 6 < empty_positions.length then (smp empty_positions).take 6
              else empty_positions
            let r := chanceAccumGo maxPrev bb alpha sample_positions t
            let ev := r.1 / (sample_positions.length : ℚ)
            (ev, (bb, ev) :: r.2)
    let maxCur : Nat → Option ℚ → Table → ℚ × Table := fun bb _ t =>
      match List.lookup bb t with
      | some v => (v, t)
      | none =>
        if is_game_over bb then leafScore w bb t
        else
          let step0 : Option ℚ × Table := (none, t)
          let step1 :=
            let mv := move_up bb
            if mv.1 = bb then step0
            else
              let r := chanceCur mv.1 step0.1 step0.2
              (omax step0.1 (r.1 + (mv.2 : ℚ) * (1 / 10)), r.2)
          let step2 :=
            let mv := move_down bb
            if mv.1 = bb then step1
            else
              let r := chanceCur mv.1 step1.1 step1.2
              (omax step1.1 (r.1 + (mv.2 : ℚ) * (1 / 10)), r.2)
          let step3 :=
            let mv := move_left bb
            if mv.1 = bb then step2
            else
              let r := chanceCur mv.1 step2.1 step2.2
              (omax step2.1 (r.1 + (mv.2 : ℚ) * (1 / 10)), r.2)
          let step4 :=
            let mv := move_right bb
            if mv.1 = bb then step3
            else
              let r := chanceCur mv.1 step3.1 step3.2
              (omax step3.1 (r.1 + (mv.2 : ℚ) * (1 / 10)), r.2)
          match step4.1 with
          | some v => (v, (bb, v) :: step4.2)
          | none => leafScore w bb step4.2
    (maxCur, chanceCur)

/-- `_expectimax_search`, dispatching on the node kind. -/
def _expectimax_search (bb depth : Nat) (is_max_node : Bool) (alpha : Option ℚ)
    (w : Weights) (smp : List Nat → List Nat) (t : Table) : ℚ × Table :=
  if is_max_node then (atDepth w smp depth).1 bb alpha t
  else (atDepth w smp depth).2 bb alpha t

/-- The `(name, move_func)` list iterated by `expectimax_choose_move`. -/
def movesList : List (String × (Nat → Nat × Nat)) :=
  [("up", move_up), ("down", move_down), ("left", move_left), ("right", move_right)]

/-- The selection loop of `expectimax_choose_move`: skip no-op directions,
evaluate the chance node (with default `alpha = -inf`), add
`0.1 * score_gained`, and keep the strictly best `(best_move, best_score)`
while threading the table. -/
def emcGo (bb depth : Nat) (w : Weights) (smp : List Nat → List Nat) :
    List (String × (Nat → Nat × Nat)) → Option String × Option ℚ × Table →
      Option String × Option ℚ × Table
  | [], st => st
  | (name, f) :: rest, (bm, bs, t) =>
    let (nb, sg) := f bb
    if nb = bb then emcGo bb depth w smp rest (bm, bs, t)
    else
      let r := _expectimax_search nb depth false none w smp t
      let total := r.1 + (sg : ℚ) * (1 / 10)
      if gtOpt total bs then emcGo bb depth w smp rest (some name, some total, r.2)
      else emcGo bb depth w smp rest (bm, bs, r.2)

/-- `expectimax_choose_move(game, depth, clear_cache, weights)`: encode the
game board, optionally clear the (threaded) transposition table, and run
the selection loop. -/
def expectimax_choose_move (board : List (List Nat)) (depth : Nat) (clear_cache : Bool)
    (w : Weights) (smp : List Nat → List Nat) (t0 : Table) : Option String :=
  let t := if clear_cache then [] else t0
  let bb := board_to_bitboard board
  (emcGo bb depth w smp movesList (none, none, t)).1

/-! ## Spec-side definitions

These re-state, in the spec's own terms, quantities that the claims compare
against the implementation above. -/

/-- Spec side of C8: the `(direction, chance value + 0.1 * gained)`
candidate list of `expectimax_choose_move` for the board-changing
directions, in iteration order, with the table threaded identically. -/
def emcCands (bb depth : Nat) (w : Weights) (smp : List Nat → List Nat) :
    List (String × (Nat → Nat × Nat)) → Table → List (String × ℚ) × Table
  | [], t => ([], t)
  | (name, f) :: rest, t =>
    let (nb, sg) := f bb
    if nb = bb then emcCands bb depth w smp rest t
    else
      let r := _expectimax_search nb depth false none w smp t
      let rc := emcCands bb depth w smp rest r.2
      ((name, r.1 + (sg : ℚ) * (1 / 10)) :: rc.1, rc.2)

/-- Spec side of C3: "the MAX-node value of `bb'` evaluated at depth-1"
(`depthM1`), given the transposition table state `t`. -/
def maxNodeValue (bbc depthM1 : Nat) (alpha : Option ℚ) (w : Weights)
    (smp : List Nat → List Nat) (t : Table) : ℚ :=
  (_expectimax_search bbc depthM1 true alpha w smp t).1

/-- Spec side of C3: the transposition table resulting from a MAX-node
evaluation. -/
def maxNodeTable (bbc depthM1 : Nat) (alpha : Option ℚ) (w : Weights)
    (smp : List Nat → List Nat) (t : Table) : Table :=
  (_expectimax_search bbc depthM1 true alpha w smp t).2

/-- Spec side of C3: the table state after evaluating both children
(2-tile then 4-tile) of one chance position. -/
def chancePosTable (bb pos depthM1 : Nat) (alpha : Option ℚ) (w : Weights)
    (smp : List Nat → List Nat) (t : Table) : Table :=
  maxNodeTable (add_tile bb pos 2) depthM1 alpha w smp
    (maxNodeTable (add_tile bb pos 1) depthM1 alpha w smp t)

/-- Spec side of C3: the sum over the given empty positions of
`0.9 * MAX(board + 2 at pos) + 0.1 * MAX(board + 4 at pos)`, each child
evaluated at depth-1 with the table threaded left to right. -/
def chanceSpecSum (bb depthM1 : Nat) (alpha : Option ℚ) (w : Weights)
    (smp : List Nat → List Nat) : List Nat → Table → ℚ
  | [], _ => 0
  | pos :: rest, t =>
    (9 / 10) * maxNodeValue (add_tile bb pos 1) depthM1 alpha w smp t +
      (1 / 10) * maxNodeValue (add_tile bb pos 2) depthM1 alpha w smp
        (maxNodeTable (add_tile bb pos 1) depthM1 alpha w smp t) +
      chanceSpecSum bb depthM1 alpha w smp rest (chancePosTable bb pos depthM1 alpha w smp t)

/-- Spec side of C2: "the four tile values decoded from v's nibbles". -/
def specDecodeVals (v : Nat) : List Nat :=
  (List.range 4).map fun i => let e := nib v i; if e = 0 then 0 else 2 ^ e

/-- Spec side of C2: "compact non-zero values left-to-right". -/
def specCompact (l : List Nat) : List Nat := l.filter (· ≠ 0)

/-- Spec side of C2: "if two adjacent compacted values are equal, merge
them into one doubled value and record the merge's resulting value as
gained; never merge a tile twice in the same pass". -/
def specMergeGo (a : Nat) : List Nat → List Nat × Nat
  | [] => ([a], 0)
  | b :: rest =>
    if a = b then
      match rest with
      | [] => ([a * 2], a * 2)
      | c :: rest2 =>
        let r := specMergeGo c rest2
        (a * 2 :: r.1, a * 2 + r.2)
    else
      let r := specMergeGo b rest
      (a :: r.1, r.2)

/-- Spec side of C2, continued: the merge pass over the compacted values. -/
def specMergePass : List Nat → List Nat × Nat
  | [] => ([], 0)
  | a :: rest => specMergeGo a rest

/-- Spec side of C2: the standard 2048 left collapse (compact, merge, pad
is implicit in the encoding below) with its gained score. -/
def specCollapse (v : Nat) : List Nat × Nat := specMergePass (specCompact (specDecodeVals v))

/-- Spec side of C2: "the nibble re-encoding" of a list of tile values:
each value's exponent placed in its 4-bit slot, i.e. `Σ exp_i · 16^i`
(absent positions are the zero padding). -/
def specNibbleEncode (vals : List Nat) : Nat :=
  (List.range 4).foldl
    (fun acc i =>
      acc + (if 0 < vals.getD i 0 then pyBitLength (vals.getD i 0) - 1 else 0) * 16 ^ i) 0

/-- Spec side of C2: what the claim says `ROW_LEFT_TABLE[v]` is. -/
def specRowLeft (v : Nat) : Nat := specNibbleEncode (specCollapse v).1

/-- Spec side of C2: "the nibble-reversal" of a 16-bit row value:
`Σ nib(v, 3-i) · 16^i`. -/
def specNibbleReverse (v : Nat) : Nat :=
  (List.range 4).foldl (fun acc i => acc + nib v (3 - i) * 16 ^ i) 0

/-- Little-endian base-16 digit interpretation, the proof-side normal form
for bitboards and row values: `ofNibsList [n0, n1, ...] = n0 + 16·n1 + …`. -/
def ofNibsList : List Nat → Nat
  | [] => 0
  | a :: l => a + 16 * ofNibsList l

/-! ## C1: bitboard move engine vs. grid reference implementation -/

/-- C1: the bitboard move engine does *not* agree with
`apply_move_board`.  On the valid grid with a single `2` in the top-left
corner, moving `right` should slide it to the top-right (as the reference
implementation does, with `moved = True`), but `move_right` erases the
tile: `ROW_RIGHT_TABLE` is generated from a partially built
`ROW_LEFT_TABLE` (the entry for the nibble-reversed row is read before it
has been written), so the looked-up value is still `0`. -/
theorem move_right_disagrees_with_reference :
    apply_move_board [[2, 0, 0, 0], [0, 0, 0, 0], [0, 0, 0, 0], [0, 0, 0, 0]] "right" =
      ([[0, 0, 0, 2], [0, 0, 0, 0], [0, 0, 0, 0], [0, 0, 0, 0]], true, 0) ∧
    bitboard_to_board
        (move_right
          (board_to_bitboard [[2, 0, 0, 0], [0, 0, 0, 0], [0, 0, 0, 0], [0, 0, 0, 0]])).1 =
      [[0, 0, 0, 0], [0, 0, 0, 0], [0, 0, 0, 0], [0, 0, 0, 0]] ∧
    bitboard_to_board
        (move_right
          (board_to_bitboard [[2, 0, 0, 0], [0, 0, 0, 0], [0, 0, 0, 0], [0, 0, 0, 0]])).1 ≠
      (apply_move_board [[2, 0, 0, 0], [0, 0, 0, 0], [0, 0, 0, 0], [0, 0, 0, 0]] "right").1 := by
  decide

/-! ## C2: the generated row tables -/

/-- C2: the generated tables do *not* satisfy the claimed equations on all
of `[0, 65536)`.  At `v = 1` the right table holds `0` (stale read of the
partially built left table) while the claimed
`reverse(ROW_LEFT_TABLE[reverse(v)])` is `4096`; independently, at
`v = 511` (row `32768, 32768, 2, 0`) the merged `65536` has exponent `16`,
which overflows its nibble, so `ROW_LEFT_TABLE[511] = 16` instead of the
claimed nibble re-encoding `32`.  The score conjunct does hold there. -/
theorem row_tables_fail_claim_eval :
    ROW_RIGHT_TABLE 1 = 0 ∧
    specNibbleReverse (ROW_LEFT_TABLE (specNibbleReverse 1)) = 4096 ∧
    ROW_LEFT_TABLE 511 = 16 ∧ specRowLeft 511 = 32 ∧ SCORE_TABLE 511 = 65536 := by
  decide

/-! ## C5: double application of a move -/

/-- C5 counterexample: collapsing is not idempotent.  On the board whose
first row is `2, 2, 2, 2` (bitboard `0x1111`), `move_left` changes the
board to row `4, 4` (`34`) and an immediate second `move_left` changes it
again to row `8` (`3`), refuting "changes on the first call and is
unchanged on the second, or is a no-op both times". -/
theorem move_left_twice_changes_twice :
    (move_left 0x1111).1 ≠ 0x1111 ∧
    (move_left (move_left 0x1111).1).1 ≠ (move_left 0x1111).1 := by
  decide

/-- C5 (amended): the half of the idempotence claim that survives: if a
direction's move is a no-op, applying it a second time is also a no-op;
after a board-changing first pass the board may change again (see the
counterexample). -/
theorem noop_move_is_stable :
    ∀ nmf ∈ movesList, ∀ bb : Nat,
      (nmf.2 bb).1 = bb → (nmf.2 (nmf.2 bb).1).1 = (nmf.2 bb).1 := by
  intro nmf _ bb h
  rw [h]
  exact h

/-- Witness for `noop_move_is_stable` at the empty board and `left`. -/
theorem noop_move_is_stable_witness :
    (move_left (move_left 0).1).1 = (move_left 0).1 :=
  noop_move_is_stable ("left", move_left) (by simp [movesList]) 0 (by decide)

/-! ## C4: transposition-table hits -/

/-- C4: whenever the transposition table holds an entry for `bb`, the
search returns that cached value unchanged — with the table untouched, so
no recursion happens — for every remaining depth and for both node kinds:
the cache key is the bitboard alone. -/
theorem transposition_hit_returns_cached :
    ∀ (bb depth : Nat) (k : Bool) (alpha : Option ℚ) (w : Weights)
      (smp : List Nat → List Nat) (t : Table) (v : ℚ),
      List.lookup bb t = some v →
      _expectimax_search bb depth k alpha w smp t = (v, t) := by
  intro bb depth k alpha w smp t v h
  cases depth <;> cases k <;> simp [_expectimax_search, atDepth, h]

/-- Witness for `transposition_hit_returns_cached`: a singleton table hit
at depth 5 on a MAX node. -/
theorem transposition_hit_returns_cached_witness :
    _expectimax_search 7 5 true none defaultWeights id [(7, 42)] = (42, [(7, 42)]) :=
  transposition_hit_returns_cached 7 5 true none defaultWeights id [(7, 42)] 42 (by decide)

/-! ## C9: `is_move_valid` -/

/-- C9: for the four recognized labels `is_move_valid` returns exactly
"the move changes the board", and every other label raises `ValueError`
rather than returning `False`. -/
theorem is_move_valid_spec :
    ∀ bb : Nat,
      is_move_valid bb "left" = .ok (decide ((move_left bb).1 ≠ bb)) ∧
      is_move_valid bb "right" = .ok (decide ((move_right bb).1 ≠ bb)) ∧
      is_move_valid bb "up" = .ok (decide ((move_up bb).1 ≠ bb)) ∧
      is_move_valid bb "down" = .ok (decide ((move_down bb).1 ≠ bb)) ∧
      ∀ d : String, d ∉ (["left", "right", "up", "down"] : List String) →
        is_move_valid bb d = .error ("Invalid direction: " ++ d) := by
  intro bb
  refine ⟨by simp [is_move_valid], by simp [is_move_valid], by simp [is_move_valid],
    by simp [is_move_valid], ?_⟩
  intro d hd
  simp only [List.mem_cons, List.not_mem_nil, or_false, not_or] at hd
  obtain ⟨h1, h2, h3, h4⟩ := hd
  simp [is_move_valid, h1, h2, h3, h4]

/-- Witness for `is_move_valid_spec`: an unrecognized label raises. -/
theorem is_move_valid_spec_witness :
    is_move_valid 3 "diag" = .error ("Invalid direction: " ++ "diag") :=
  (is_move_valid_spec 3).2.2.2.2 "diag" (by decide)

/-! ## C10: the `alpha` parameter does not interfere -/

/-- If the child function ignores its `alpha` argument, so does the
chance-node accumulation loop. -/
theorem chanceAccumGo_alpha_congr (child : Nat → Option ℚ → Table → ℚ × Table)
    (hchild : ∀ b a1 a2 u, child b a1 u = child b a2 u) :
    ∀ (ps : List Nat) (bb : Nat) (a1 a2 : Option ℚ) (t : Table),
      chanceAccumGo child bb a1 ps t = chanceAccumGo child bb a2 ps t := by
  intro ps
  induction ps with
  | nil => intro bb a1 a2 t; rfl
  | cons pos rest ih =>
    intro bb a1 a2 t
    simp only [chanceAccumGo]
    rw [hchild (add_tile bb pos 1) a1 a2 t]
    rw [hchild (add_tile bb pos 2) a1 a2]
    rw [ih bb a1 a2]

/-- Neither node function of `atDepth` reads its `alpha` argument. -/
theorem atDepth_alpha_congr (w : Weights) (smp : List Nat → List Nat) :
    ∀ d : Nat,
      (∀ bb a1 a2 t, (atDepth w smp d).1 bb a1 t = (atDepth w smp d).1 bb a2 t) ∧
      (∀ bb a1 a2 t, (atDepth w smp d).2 bb a1 t = (atDepth w smp d).2 bb a2 t) := by
  intro d
  induction d with
  | zero => exact ⟨fun _ _ _ _ => rfl, fun _ _ _ _ => rfl⟩
  | succ d ih =>
    refine ⟨fun _ _ _ _ => rfl, ?_⟩
    intro bb a1 a2 t
    show (atDepth w smp (d + 1)).2 bb a1 t = (atDepth w smp (d + 1)).2 bb a2 t
    simp only [atDepth]
    cases hl : List.lookup bb t with
    | some v => rfl
    | none =>
      simp only [hl]
      rw [chanceAccumGo_alpha_congr (atDepth w smp d).1 ih.1 _ bb a1 a2]

/-- C10: `_expectimax_search` returns the same value and the same final
transposition table for any two values of the `alpha` argument, for every
bitboard, depth, node kind, weight set, sampler and initial table: `alpha`
is forwarded but never consulted, so no alpha-based pruning influences the
result. -/
theorem alpha_non_interference :
    ∀ (bb depth : Nat) (k : Bool) (a1 a2 : Option ℚ) (w : Weights)
      (smp : List Nat → List Nat) (t : Table),
      _expectimax_search bb depth k a1 w smp t = _expectimax_search bb depth k a2 w smp t := by
  intro bb depth k a1 a2 w smp t
  cases k with
  | true =>
    simpa only [_expectimax_search, if_true] using
      (atDepth_alpha_congr w smp depth).1 bb a1 a2 t
  | false =>
    simpa only [_expectimax_search, Bool.false_eq_true, if_false] using
      (atDepth_alpha_congr w smp depth).2 bb a1 a2 t

/-! ## C3: the chance node averages over all empty positions -/

/-- `count_empty` agrees with the length of `get_empty_positions`. -/
theorem count_empty_eq_length (bb : Nat) :
    count_empty bb = (get_empty_positions bb).length := by
  unfold count_empty get_empty_positions
  suffices h : ∀ (l : List Nat) (c : Nat),
      l.foldl (fun c pos => if (bb >>> (4 * pos)) &&& 0xF = 0 then c + 1 else c) c =
        c + (l.filter fun pos => decide ((bb >>> (4 * pos)) &&& 0xF = 0)).length by
    simpa using h (List.range 16) 0
  intro l
  induction l with
  | nil => intro c; simp
  | cons x xs ih =>
    intro c
    by_cases hx : (bb >>> (4 * x)) &&& 0xF = 0
    all_goals simp [hx, ih]
    all_goals omega

/-- A board with an empty cell is not game over. -/
theorem is_game_over_false_of_empty (bb : Nat)
    (h : 0 < (get_empty_positions bb).length) : is_game_over bb = false := by
  unfold is_game_over
  rw [count_empty_eq_length]
  simp [h]

/-- The chance-node accumulation over the MAX children at depth `d`
computes the spec-side probability-weighted sum. -/
theorem chanceAccumGo_eq_specSum (w : Weights) (smp : List Nat → List Nat) (d : Nat) :
    ∀ (ps : List Nat) (bb : Nat) (alpha : Option ℚ) (t : Table),
      (chanceAccumGo (atDepth w smp d).1 bb alpha ps t).1 =
        chanceSpecSum bb d alpha w smp ps t := by
  intro ps
  induction ps with
  | nil => intro bb alpha t; rfl
  | cons pos rest ih =>
    intro bb alpha t
    simp only [chanceAccumGo, chanceSpecSum, maxNodeValue, maxNodeTable, chancePosTable,
      _expectimax_search, if_true]
    rw [ih]

/-- C3 (amended): for a bitboard with between 1 and 6 empty cells, any
depth ≥ 1, any weights and alpha, and an empty transposition table, the
chance node does not sample: its value is exactly
`(Σ_{pos empty} 0.9 · MAX(board+2@pos) + 0.1 · MAX(board+4@pos)) / #empty`
with the children evaluated at `depth - 1` and the table threaded left to
right (`chanceSpecSum`); the computation is moreover sampler-independent
(fully deterministic) when `depth = 1`.  (For `depth ≥ 2` determinism can
fail because subtrees may reach boards with more than 6 empty cells — see
the counterexample.) -/
theorem chance_node_exact_average :
    ∀ (bb depth : Nat) (alpha : Option ℚ) (w : Weights) (smp smp2 : List Nat → List Nat),
      1 ≤ (get_empty_positions bb).length →
      (get_empty_positions bb).length ≤ 6 →
      1 ≤ depth →
      (_expectimax_search bb depth false alpha w smp []).1 =
        chanceSpecSum bb (depth - 1) alpha w smp (get_empty_positions bb) [] /
          ((get_empty_positions bb).length : ℚ) ∧
      (depth = 1 →
        _expectimax_search bb depth false alpha w smp [] =
          _expectimax_search bb depth false alpha w smp2 []) := by
  intro bb depth alpha w smp smp2 h1 h6 hd
  obtain ⟨d, rfl⟩ : ∃ d, depth = d + 1 := ⟨depth - 1, by omega⟩
  have hgo : is_game_over bb = false := is_game_over_false_of_empty bb (by omega)
  have hne : (get_empty_positions bb).isEmpty = false := by
    cases hh : get_empty_positions bb with
    | nil => rw [hh] at h1; simp at h1
    | cons a as => simp
  have hsam : ¬ 6 < (get_empty_positions bb).length := by omega
  constructor
  · simp only [_expectimax_search, Bool.false_eq_true, if_false, atDepth, List.lookup,
      hgo, hne, Bool.false_eq_true, if_false, if_neg hsam, Nat.add_sub_cancel]
    rw [chanceAccumGo_eq_specSum]
  · intro h1d
    obtain rfl : d = 0 := by omega
    simp only [_expectimax_search, Bool.false_eq_true, if_false, atDepth, List.lookup,
      hgo, hne, if_neg hsam]

/- The kernel can evaluate the exact-rational model, but the elaborator
must be allowed to unfold the `Rat` arithmetic underlying `ℚ` for `decide`
to reach it. -/
attribute [local semireducible] Rat.add Rat.mul Rat.inv Rat.sub

/-- C3 counterexample to the claim as stated: on the board with rows
`2,2,2,2 / 4,4,4,4 / 8,8,8,8 / 16,16,_,_` (two empty cells) at depth 2
with an empty table, two different samplers give different chance-node
values (9781/200 vs 9771/200): one ply deeper, the merge-heavy moves
produce boards with more than 6 empty cells, so the sampling branch
triggers inside the subtree and the computation is not deterministic. -/
theorem chance_node_not_deterministic_at_depth2 :
    1 ≤ (get_empty_positions 0x0044333322221111).length ∧
    (get_empty_positions 0x0044333322221111).length ≤ 6 ∧
    (_expectimax_search 0x0044333322221111 2 false none defaultWeights id []).1 ≠
      (_expectimax_search 0x0044333322221111 2 false none defaultWeights
        List.reverse []).1 := by
  decide

/-- Witness for `chance_node_exact_average`: a board with one empty cell
at depth 1. -/
theorem chance_node_exact_average_witness :
    (_expectimax_search 0x1111111111111110 1 false none defaultWeights id []).1 =
      chanceSpecSum 0x1111111111111110 0 none defaultWeights id
        (get_empty_positions 0x1111111111111110) [] /
        ((get_empty_positions 0x1111111111111110).length : ℚ) ∧
    _expectimax_search 0x1111111111111110 1 false none defaultWeights id [] =
      _expectimax_search 0x1111111111111110 1 false none defaultWeights List.reverse [] :=
  have h := chance_node_exact_average 0x1111111111111110 1 none defaultWeights id
    List.reverse (by decide) (by decide) (by decide)
  ⟨h.1, h.2 rfl⟩

/-! ## C8: `expectimax_choose_move` -/

theorem gtOpt_none (v : ℚ) : gtOpt v none = true := rfl

theorem gtOpt_some_iff (v b : ℚ) : gtOpt v (some b) = true ↔ b < v := by
  simp [gtOpt]

theorem gtOpt_some_false_iff (v b : ℚ) : gtOpt v (some b) = false ↔ v ≤ b := by
  simp [gtOpt]

/-- The selection loop relative to the candidate list: the final table is
the candidates' table, and the final `(best_move, best_score)` is either
the initial one (when no candidate beats the initial score) or the
first-reached maximal candidate. -/
theorem emcGo_invariant (bb depth : Nat) (w : Weights) (smp : List Nat → List Nat) :
    ∀ (mvs : List (String × (Nat → Nat × Nat))) (bm : Option String) (bs : Option ℚ)
      (t : Table),
      (emcGo bb depth w smp mvs (bm, bs, t)).2.2 = (emcCands bb depth w smp mvs t).2 ∧
      (((emcGo bb depth w smp mvs (bm, bs, t)).1 = bm ∧
        (emcGo bb depth w smp mvs (bm, bs, t)).2.1 = bs ∧
        ∀ c ∈ (emcCands bb depth w smp mvs t).1, gtOpt c.2 bs = false) ∨
       (∃ nm v, (nm, v) ∈ (emcCands bb depth w smp mvs t).1 ∧
        (emcGo bb depth w smp mvs (bm, bs, t)).1 = some nm ∧
        (emcGo bb depth w smp mvs (bm, bs, t)).2.1 = some v ∧
        gtOpt v bs = true ∧
        ∀ c ∈ (emcCands bb depth w smp mvs t).1, c.2 ≤ v)) := by
  intro mvs
  induction mvs with
  | nil =>
    intro bm bs t
    exact ⟨rfl, Or.inl ⟨rfl, rfl, by simp [emcCands]⟩⟩
  | cons p rest ih =>
    intro bm bs t
    obtain ⟨name, f⟩ := p
    by_cases hskip : (f bb).1 = bb
    · simpa only [emcGo, emcCands, hskip, if_pos rfl] using ih bm bs t
    · simp only [emcGo, emcCands, if_neg hskip]
      set r := _expectimax_search (f bb).1 depth false none w smp t with hr
      set total := r.1 + ((f bb).2 : ℚ) * (1 / 10) with htotal
      by_cases hbeat : gtOpt total bs = true
      · simp only [hbeat, if_pos rfl]
        obtain ⟨htab, hres⟩ := ih (some name) (some total) r.2
        refine ⟨htab, Or.inr ?_⟩
        rcases hres with ⟨h1, h2, h3⟩ | ⟨nm, v, hmem, h1, h2, h4, h5⟩
        · refine ⟨name, total, by simp, h1, h2, hbeat, ?_⟩
          intro c hc
          rcases List.mem_cons.mp hc with rfl | hc
          · exact le_refl _
          · exact (gtOpt_some_false_iff _ _).mp (h3 c hc)
        · refine ⟨nm, v, by simp [hmem], h1, h2, ?_, ?_⟩
          · cases bs with
            | none => rfl
            | some b =>
              have hbv : total < v := (gtOpt_some_iff _ _).mp h4
              have hbt : b < total := (gtOpt_some_iff _ _).mp hbeat
              exact (gtOpt_some_iff _ _).mpr (hbt.trans hbv)
          · intro c hc
            rcases List.mem_cons.mp hc with rfl | hc
            · exact le_of_lt ((gtOpt_some_iff _ _).mp h4)
            · exact h5 c hc
      · rw [Bool.not_eq_true] at hbeat
        simp only [hbeat, Bool.false_eq_true, if_false]
        obtain ⟨htab, hres⟩ := ih bm bs r.2
        refine ⟨htab, ?_⟩
        rcases hres with ⟨h1, h2, h3⟩ | ⟨nm, v, hmem, h1, h2, h4, h5⟩
        · refine Or.inl ⟨h1, h2, ?_⟩
          intro c hc
          rcases List.mem_cons.mp hc with rfl | hc
          · exact hbeat
          · exact h3 c hc
        · refine Or.inr ⟨nm, v, by simp [hmem], h1, h2, h4, ?_⟩
          intro c hc
          rcases List.mem_cons.mp hc with rfl | hc
          · cases bs with
            | none => simp [gtOpt] at hbeat
            | some b =>
              have h6 : total ≤ b := (gtOpt_some_false_iff _ _).mp hbeat
              have h7 : b < v := (gtOpt_some_iff _ _).mp h4
              exact h6.trans (le_of_lt h7)
          · exact h5 c hc

/-- The candidate list is empty exactly when every direction is a no-op. -/
theorem emcCands_nil_iff (bb depth : Nat) (w : Weights) (smp : List Nat → List Nat) :
    ∀ (mvs : List (String × (Nat → Nat × Nat))) (t : Table),
      (emcCands bb depth w smp mvs t).1 = [] ↔ ∀ p ∈ mvs, (p.2 bb).1 = bb := by
  intro mvs
  induction mvs with
  | nil => intro t; simp [emcCands]
  | cons p rest ih =>
    intro t
    obtain ⟨name, f⟩ := p
    by_cases hskip : (f bb).1 = bb
    · simp only [emcCands, hskip, eq_self_iff_true, if_true]
      rw [ih]
      constructor
      · intro h q hq
        rcases List.mem_cons.mp hq with rfl | hq
        · exact hskip
        · exact h q hq
      · intro h q hq
        exact h q (List.mem_cons_of_mem _ hq)
    · simp only [emcCands, if_neg hskip]
      constructor
      · intro h; exact absurd h (by simp)
      · intro h
        exact absurd (h (name, f) (List.mem_cons_self _ _)) hskip

/-- Every candidate direction actually changes the board. -/
theorem emcCands_mem_changes (bb depth : Nat) (w : Weights) (smp : List Nat → List Nat) :
    ∀ (mvs : List (String × (Nat → Nat × Nat))) (t : Table) (nm : String) (v : ℚ),
      (nm, v) ∈ (emcCands bb depth w smp mvs t).1 →
      ∃ f, (nm, f) ∈ mvs ∧ (f bb).1 ≠ bb := by
  intro mvs
  induction mvs with
  | nil => intro t nm v h; simp [emcCands] at h
  | cons p rest ih =>
    intro t nm v h
    obtain ⟨name, f⟩ := p
    by_cases hskip : (f bb).1 = bb
    · simp only [emcCands, hskip, if_pos rfl] at h
      obtain ⟨g, hg, hgne⟩ := ih _ nm v h
      exact ⟨g, List.mem_cons_of_mem _ hg, hgne⟩
    · simp only [emcCands, if_neg hskip] at h
      rcases List.mem_cons.mp h with heq | h
      · obtain ⟨rfl, -⟩ := Prod.mk.injEq .. ▸ heq
        exact ⟨f, by simp, hskip⟩
      · obtain ⟨g, hg, hgne⟩ := ih _ nm v h
        exact ⟨g, List.mem_cons_of_mem _ hg, hgne⟩

/-- C8: `expectimax_choose_move` returns `None` iff all four direction
moves leave the encoded bitboard unchanged; otherwise it returns a
direction that changes the board and whose chance-node value plus
`0.1 * gained` is maximal among the board-changing candidates (table
threaded in iteration order, `emcCands`). -/
theorem expectimax_choose_move_spec :
    ∀ (board : List (List Nat)) (depth : Nat) (cc : Bool) (w : Weights)
      (smp : List Nat → List Nat) (t0 : Table),
      (expectimax_choose_move board depth cc w smp t0 = none ↔
        ((move_up (board_to_bitboard board)).1 = board_to_bitboard board ∧
         (move_down (board_to_bitboard board)).1 = board_to_bitboard board ∧
         (move_left (board_to_bitboard board)).1 = board_to_bitboard board ∧
         (move_right (board_to_bitboard board)).1 = board_to_bitboard board)) ∧
      (∀ nm, expectimax_choose_move board depth cc w smp t0 = some nm →
        ∃ v, (nm, v) ∈ (emcCands (board_to_bitboard board) depth w smp movesList
              (if cc then [] else t0)).1 ∧
          (∃ f, (nm, f) ∈ movesList ∧
            (f (board_to_bitboard board)).1 ≠ board_to_bitboard board) ∧
          ∀ c ∈ (emcCands (board_to_bitboard board) depth w smp movesList
              (if cc then [] else t0)).1, c.2 ≤ v) := by
  intro board depth cc w smp t0
  set bb := board_to_bitboard board with hbb
  set t := if cc then ([] : Table) else t0 with ht
  have hmain := (emcGo_invariant bb depth w smp movesList none none t).2
  have hemc : expectimax_choose_move board depth cc w smp t0 =
      (emcGo bb depth w smp movesList (none, none, t)).1 := rfl
  constructor
  · rw [hemc]
    constructor
    · intro hnone
      rcases hmain with ⟨-, -, hall⟩ | ⟨nm, v, -, h1, -⟩
      · have hnil : (emcCands bb depth w smp movesList t).1 = [] := by
          cases hc : (emcCands bb depth w smp movesList t).1 with
          | nil => rfl
          | cons c cs =>
            have := hall c (by rw [hc]; exact List.mem_cons_self _ _)
            simp [gtOpt_none] at this
        have := (emcCands_nil_iff bb depth w smp movesList t).mp hnil
        exact ⟨this ("up", move_up) (by simp [movesList]),
          this ("down", move_down) (by simp [movesList]),
          this ("left", move_left) (by simp [movesList]),
          this ("right", move_right) (by simp [movesList])⟩
      · rw [hnone] at h1; exact absurd h1 (by simp)
    · intro hall
      have hnil : (emcCands bb depth w smp movesList t).1 = [] := by
        rw [emcCands_nil_iff]
        intro p hp
        simp only [movesList, List.mem_cons, List.not_mem_nil, or_false] at hp
        rcases hp with rfl | rfl | rfl | rfl
        · exact hall.1
        · exact hall.2.1
        · exact hall.2.2.1
        · exact hall.2.2.2
      rcases hmain with ⟨h1, -, -⟩ | ⟨nm, v, hmem, -⟩
      · exact h1
      · rw [hnil] at hmem; exact absurd hmem (by simp)
  · intro nm hsome
    rw [hemc] at hsome
    rcases hmain with ⟨h1, -, -⟩ | ⟨nm', v, hmem, h1, -, -, h5⟩
    · rw [hsome] at h1; exact absurd h1 (by simp)
    · rw [hsome] at h1
      obtain rfl : nm' = nm := Option.some.inj h1.symm
      exact ⟨v, hmem, emcCands_mem_changes bb depth w smp movesList t _ v hmem, h5⟩

/-- Witness for `expectimax_choose_move_spec`: on a dense board where only
`down` and `right` change the board, the search at depth 1 picks `down`,
which is a maximal board-changing candidate. -/
theorem expectimax_choose_move_spec_witness :
    ∃ v, ("down", v) ∈ (emcCands
        (board_to_bitboard [[2,4,2,4],[4,2,4,2],[2,4,2,4],[4,2,4,0]]) 1
        defaultWeights id movesList []).1 ∧
      (∃ f, ("down", f) ∈ movesList ∧
        (f (board_to_bitboard [[2,4,2,4],[4,2,4,2],[2,4,2,4],[4,2,4,0]])).1 ≠
          board_to_bitboard [[2,4,2,4],[4,2,4,2],[2,4,2,4],[4,2,4,0]]) ∧
      ∀ c ∈ (emcCands
          (board_to_bitboard [[2,4,2,4],[4,2,4,2],[2,4,2,4],[4,2,4,0]]) 1
          defaultWeights id movesList []).1, c.2 ≤ v :=
  (expectimax_choose_move_spec [[2,4,2,4],[4,2,4,2],[2,4,2,4],[4,2,4,0]] 1 true
    defaultWeights id []).2 "down" (by decide)

/-! ## Nibble arithmetic toolbox (for C6 and C7) -/

theorem nib_eq_div_mod (bb p : Nat) : nib bb p = bb / 16 ^ p % 16 := by
  have h : nib bb p = bb / 2 ^ (4 * p) % 2 ^ 4 := by
    unfold nib
    rw [Nat.shiftRight_eq_div_pow]
    have h15 : (0xF : Nat) = 2 ^ 4 - 1 := rfl
    rw [h15, Nat.and_pow_two_sub_one_eq_mod]
  rw [h, Nat.pow_mul]
  norm_num

theorem nib_lt_16 (bb p : Nat) : nib bb p < 16 := by
  rw [nib_eq_div_mod]
  exact Nat.mod_lt _ (by norm_num)

theorem ofNibsList_lt : ∀ l : List Nat, (∀ a ∈ l, a < 16) → ofNibsList l < 16 ^ l.length := by
  intro l
  induction l with
  | nil => intro _; simp [ofNibsList]
  | cons a t ih =>
    intro h
    have ha : a < 16 := h a (by simp)
    have ht := ih fun x hx => h x (by simp [hx])
    simp only [ofNibsList, List.length_cons, pow_succ]
    calc a + 16 * ofNibsList t < 16 * (ofNibsList t + 1) := by omega
    _ ≤ 16 * 16 ^ t.length := by omega
    _ = 16 ^ t.length * 16 := by ring

theorem ofNibsList_append_singleton :
    ∀ (l : List Nat) (a : Nat), ofNibsList (l ++ [a]) = ofNibsList l + 16 ^ l.length * a := by
  intro l
  induction l with
  | nil => intro a; simp [ofNibsList]
  | cons b t ih =>
    intro a
    rw [List.cons_append]
    show b + 16 * ofNibsList (t ++ [a]) = b + 16 * ofNibsList t + 16 ^ (b :: t).length * a
    rw [ih]
    simp only [List.length_cons, pow_succ]
    ring

theorem nib_ofNibsList :
    ∀ l : List Nat, (∀ a ∈ l, a < 16) → ∀ p, nib (ofNibsList l) p = l.getD p 0 := by
  intro l
  induction l with
  | nil => intro _ p; simp [ofNibsList, nib_eq_div_mod]
  | cons a t ih =>
    intro h p
    have ha : a < 16 := h a (by simp)
    cases p with
    | zero =>
      rw [nib_eq_div_mod]
      simp only [ofNibsList, pow_zero, Nat.div_one, List.getD_cons_zero]
      omega
    | succ p =>
      rw [List.getD_cons_succ, ← ih (fun x hx => h x (by simp [hx])) p]
      rw [nib_eq_div_mod, nib_eq_div_mod]
      simp only [ofNibsList]
      have hdiv : (a + 16 * ofNibsList t) / 16 ^ (p + 1) = ofNibsList t / 16 ^ p := by
        rw [pow_succ', ← Nat.div_div_eq_div_mul]
        congr 1
        omega
      rw [hdiv]

theorem ofNibsList_decomp : ∀ k x : Nat, x < 16 ^ k →
    ofNibsList ((List.range k).map fun p => x / 16 ^ p % 16) = x := by
  intro k
  induction k with
  | zero =>
    intro x hx
    have : x = 0 := by simpa using hx
    subst this
    simp [ofNibsList]
  | succ k ih =>
    intro x hx
    rw [List.range_succ_eq_map]
    simp only [List.map_cons, List.map_map]
    have hcomp : ((fun p => x / 16 ^ p % 16) ∘ Nat.succ) = fun p => x / 16 / 16 ^ p % 16 := by
      funext p
      simp only [Function.comp_apply]
      rw [pow_succ', ← Nat.div_div_eq_div_mul]
    rw [hcomp]
    simp only [ofNibsList, pow_zero, Nat.div_one]
    rw [ih (x / 16) (by rw [pow_succ'] at hx; omega)]
    omega

theorem nibble_ext {x y : Nat} (hx : x < 2 ^ 64) (hy : y < 2 ^ 64)
    (h : ∀ p, p < 16 → nib x p = nib y p) : x = y := by
  have h16 : (2 : Nat) ^ 64 = 16 ^ 16 := by norm_num
  rw [h16] at hx hy
  rw [← ofNibsList_decomp 16 x hx, ← ofNibsList_decomp 16 y hy]
  congr 1
  apply List.map_congr_left
  intro p hp
  have hp16 : p < 16 := List.mem_range.mp hp
  have := h p hp16
  rwa [nib_eq_div_mod, nib_eq_div_mod] at this

theorem shiftRight_or_distrib (x y k : Nat) :
    (x ||| y) >>> k = (x >>> k) ||| (y >>> k) := by
  apply Nat.eq_of_testBit_eq
  intro j
  simp [Nat.testBit_or, Nat.testBit_shiftRight]

theorem nib_or (x y p : Nat) : nib (x ||| y) p = nib x p ||| nib y p := by
  unfold nib
  rw [shiftRight_or_distrib, Nat.and_distrib_right]

theorem nib_and (x y p : Nat) : nib (x &&& y) p = nib x p &&& nib y p := by
  unfold nib
  apply Nat.eq_of_testBit_eq
  intro j
  simp only [Nat.testBit_and, Nat.testBit_shiftRight]
  cases x.testBit (4 * p + j) <;> cases y.testBit (4 * p + j) <;>
    cases (0xF : Nat).testBit j <;> simp

theorem nib_shiftRight_nibs (x k p : Nat) : nib (x >>> (4 * k)) p = nib x (p + k) := by
  unfold nib
  rw [← Nat.shiftRight_add]
  congr 2
  ring

theorem nib_shiftLeft_ge (x k p : Nat) (h : k ≤ p) :
    nib (x <<< (4 * k)) p = nib x (p - k) := by
  unfold nib
  rw [Nat.shiftLeft_eq, Nat.shiftRight_eq_div_pow, Nat.shiftRight_eq_div_pow]
  have h1 : (2 : Nat) ^ (4 * p) = 2 ^ (4 * k) * 2 ^ (4 * (p - k)) := by
    rw [← pow_add]
    congr 1
    omega
  rw [h1, ← Nat.div_div_eq_div_mul, Nat.mul_div_cancel _ (Nat.pos_pow_of_pos _ (by norm_num))]

theorem and_15_eq_mod (x : Nat) : x &&& 0xF = x % 16 := by
  have h15 : (0xF : Nat) = 2 ^ 4 - 1 := rfl
  rw [h15, Nat.and_pow_two_sub_one_eq_mod]

theorem mod16_mod16 (x : Nat) : x % 16 % 16 = x % 16 := Nat.mod_mod_of_dvd x dvd_rfl

theorem nib_shiftLeft_lt (x k p : Nat) (h : p < k) : nib (x <<< (4 * k)) p = 0 := by
  unfold nib
  rw [Nat.shiftLeft_eq, Nat.shiftRight_eq_div_pow]
  have h1 : x * 2 ^ (4 * k) / 2 ^ (4 * p) = 16 * (x * 2 ^ (4 * (k - p - 1))) := by
    have h2 : (2 : Nat) ^ (4 * k) = 2 ^ (4 * p) * (16 * 2 ^ (4 * (k - p - 1))) := by
      rw [show 4 * k = 4 * p + (4 + 4 * (k - p - 1)) by omega, pow_add, pow_add]
      norm_num
    rw [h2, show x * (2 ^ (4 * p) * (16 * 2 ^ (4 * (k - p - 1)))) =
      16 * (x * 2 ^ (4 * (k - p - 1))) * 2 ^ (4 * p) by ring]
    rw [Nat.mul_div_cancel _ (Nat.pos_pow_of_pos _ (by norm_num))]
  rw [h1]
  have h15 : (0xF : Nat) = 2 ^ 4 - 1 := rfl
  rw [h15, Nat.and_pow_two_sub_one_eq_mod]
  simp [Nat.mul_mod_right]

/-! ## C6: the bit transpose is an involution -/

theorem nib_sl12_ge (x p : Nat) (h : 3 ≤ p) : nib (x <<< 12) p = nib x (p - 3) :=
  nib_shiftLeft_ge x 3 p h

theorem nib_sl12_lt (x p : Nat) (h : p < 3) : nib (x <<< 12) p = 0 :=
  nib_shiftLeft_lt x 3 p h

theorem nib_sl24_ge (x p : Nat) (h : 6 ≤ p) : nib (x <<< 24) p = nib x (p - 6) :=
  nib_shiftLeft_ge x 6 p h

theorem nib_sl24_lt (x p : Nat) (h : p < 6) : nib (x <<< 24) p = 0 :=
  nib_shiftLeft_lt x 6 p h

theorem nib_sr12 (x p : Nat) : nib (x >>> 12) p = nib x (p + 3) :=
  nib_shiftRight_nibs x 3 p

theorem nib_sr24 (x p : Nat) : nib (x >>> 24) p = nib x (p + 6) :=
  nib_shiftRight_nibs x 6 p

/-- The masked-shift transpose moves the nibble of cell `(c, r)` to cell
`(r, c)`: position `p = 4r + c` receives position `4c + r`
(`c = p % 4`, `r = p / 4`). -/
theorem nib_transpose (bb p : Nat) (hp : p < 16) :
    nib (_transpose bb) p = nib bb (4 * (p % 4) + p / 4) := by
  interval_cases p <;>
    (simp only [_transpose]
     simp [nib_or, nib_and, nib_sr12, nib_sr24, nib_sl12_ge, nib_sl12_lt, nib_sl24_ge,
       nib_sl24_lt]
     simp [nib, and_15_eq_mod, mod16_mod16])

theorem transpose_lt_two_pow (bb : Nat) : _transpose bb < 2 ^ 64 := by
  simp only [_transpose]
  apply Nat.or_lt_two_pow
  apply Nat.or_lt_two_pow
  · exact Nat.and_lt_two_pow _ (by norm_num)
  · have h1 : (bb &&& 0xF0F00F0FF0F00F0F ||| (bb &&& 0x0000F0F00000F0F0) <<< 12 |||
        (bb &&& 0x0F0F00000F0F0000) >>> 12) &&& 0x00FF00FF00000000 < 2 ^ 64 :=
      Nat.and_lt_two_pow _ (by norm_num)
    calc _ ≤ (bb &&& 0xF0F00F0FF0F00F0F ||| (bb &&& 0x0000F0F00000F0F0) <<< 12 |||
        (bb &&& 0x0F0F00000F0F0000) >>> 12) &&& 0x00FF00FF00000000 := by
          rw [Nat.shiftRight_eq_div_pow]
          exact Nat.div_le_self _ _
    _ < 2 ^ 64 := h1
  · have hle : (bb &&& 0xF0F00F0FF0F00F0F ||| (bb &&& 0x0000F0F00000F0F0) <<< 12 |||
        (bb &&& 0x0F0F00000F0F0000) >>> 12) &&& 0x00000000FF00FF00 ≤ 0x00000000FF00FF00 :=
      Nat.and_le_right
    rw [Nat.shiftLeft_eq]
    calc _ ≤ (0x00000000FF00FF00 : Nat) * 2 ^ 24 :=
      Nat.mul_le_mul_right _ hle
    _ < 2 ^ 64 := by norm_num

/-- C6: for every 64-bit input, applying the bit transpose twice returns
the original bitboard. -/
theorem transpose_involution : ∀ bb : Nat, bb < 2 ^ 64 → _transpose (_transpose bb) = bb := by
  intro bb hbb
  apply nibble_ext (transpose_lt_two_pow _) hbb
  intro p hp
  rw [nib_transpose _ p hp]
  rw [nib_transpose bb _ (by omega)]
  congr 1
  omega

/-- Witness for `transpose_involution` at a concrete 64-bit value. -/
theorem transpose_involution_witness :
    _transpose (_transpose 0x0123456789ABCDEF) = 0x0123456789ABCDEF :=
  transpose_involution 0x0123456789ABCDEF (by decide)

/-! ## C7: codec round trip -/

theorem pyBitLength_two_pow (e : Nat) (he : e ≤ 15) : pyBitLength (2 ^ e) = e + 1 := by
  interval_cases e <;> decide

theorem foldl_congr_fun {α : Type} {f g : α → Nat → α} :
    ∀ (l : List Nat) (a : α), (∀ b : α, ∀ x ∈ l, f b x = g b x) → l.foldl f a = l.foldl g a := by
  intro l
  induction l with
  | nil => intro a _; rfl
  | cons x xs ih =>
    intro a h
    simp only [List.foldl_cons]
    rw [h a x (by simp)]
    exact ih _ fun b y hy => h b y (by simp [hy])

/-- Accumulating disjoint nibbles with `|=` is the base-16 digit sum. -/
theorem foldl_or_shift (f : Nat → Nat) :
    ∀ k, (∀ p < k, f p < 16) →
      (List.range k).foldl (fun acc p => acc ||| (f p <<< (4 * p))) 0 =
        ofNibsList ((List.range k).map f) := by
  intro k
  induction k with
  | zero => intro _; simp [ofNibsList]
  | succ k ih =>
    intro hf
    rw [List.range_succ, List.foldl_append, List.map_append,
      ih fun p hp => hf p (by omega)]
    simp only [List.foldl_cons, List.foldl_nil, List.map_cons, List.map_nil]
    rw [ofNibsList_append_singleton]
    have hlen : ((List.range k).map f).length = k := by simp
    rw [hlen]
    have hbound : ofNibsList ((List.range k).map f) < 2 ^ (4 * k) := by
      have h1 := ofNibsList_lt ((List.range k).map f) (by
        intro a ha
        obtain ⟨p, hpmem, rfl⟩ := List.mem_map.mp ha
        exact hf p (by have := List.mem_range.mp hpmem; omega))
      rw [hlen] at h1
      calc ofNibsList ((List.range k).map f) < 16 ^ k := h1
      _ = 2 ^ (4 * k) := by rw [show (16 : Nat) = 2 ^ 4 from rfl, ← pow_mul]
    rw [Nat.shiftLeft_eq]
    have hor := Nat.mul_add_lt_is_or hbound (f k)
    rw [show (16 : Nat) ^ k = 2 ^ (4 * k) from by
      rw [show (16 : Nat) = 2 ^ 4 from rfl, ← pow_mul]]
    rw [mul_comm (f k) ((2 : Nat) ^ (4 * k)), Nat.or_comm, ← hor]
    exact Nat.add_comm _ _

theorem getD_of_lt {α : Type} (l : List α) (d : α) (n : Nat) (h : n < l.length) :
    l.getD n d = l[n] := by
  rw [List.getD_eq_getElem?_getD, List.getElem?_eq_getElem h]
  rfl

theorem map_range_getD (f : Nat → Nat) (k p : Nat) (hp : p < k) :
    ((List.range k).map f).getD p 0 = f p := by
  rw [getD_of_lt _ _ _ (by simpa using hp), List.getElem_map, List.getElem_range]

theorem bitboard_to_board_cell (bb r c : Nat) (hr : r < 4) (hc : c < 4) :
    gget (bitboard_to_board bb) r c =
      if 0 < nib bb (r * 4 + c) then 2 ^ nib bb (r * 4 + c) else 0 := by
  rw [show (2 : Nat) ^ nib bb (r * 4 + c) = 1 <<< nib bb (r * 4 + c) by
    rw [Nat.shiftLeft_eq, one_mul]]
  interval_cases r <;> interval_cases c <;> rfl

/-- Encoding the decoded board reproduces every 64-bit bitboard. -/
theorem encode_decode (bb : Nat) (hbb : bb < 2 ^ 64) :
    board_to_bitboard (bitboard_to_board bb) = bb := by
  have hstep : ∀ (acc : Nat), ∀ p ∈ List.range 16,
      (fun acc p =>
        let val := ((bitboard_to_board bb).getD (p / 4) []).getD (p % 4) 0
        if 0 < val then acc ||| ((pyBitLength val - 1) <<< (4 * p)) else acc) acc p =
      (fun acc p => acc ||| (nib bb p <<< (4 * p))) acc p := by
    intro acc p hp
    have hp16 : p < 16 := List.mem_range.mp hp
    have hcell := bitboard_to_board_cell bb (p / 4) (p % 4) (by omega) (by omega)
    rw [show p / 4 * 4 + p % 4 = p by omega] at hcell
    show (if 0 < gget (bitboard_to_board bb) (p / 4) (p % 4) then
        acc ||| ((pyBitLength (gget (bitboard_to_board bb) (p / 4) (p % 4)) - 1) <<< (4 * p))
      else acc) = acc ||| (nib bb p <<< (4 * p))
    rw [hcell]
    by_cases h0 : 0 < nib bb p
    · rw [if_pos h0,
        if_pos (pow_pos (by norm_num : (0 : Nat) < 2) (nib bb p) : 0 < 2 ^ nib bb p),
        pyBitLength_two_pow _ (by have := nib_lt_16 bb p; omega)]
      simp
    · have hz : nib bb p = 0 := by omega
      rw [if_neg h0, if_neg (by omega : ¬ (0 : Nat) < 0), hz]
      simp [Nat.zero_shiftLeft]
  unfold board_to_bitboard
  rw [foldl_congr_fun (List.range 16) 0 hstep,
    foldl_or_shift (fun p => nib bb p) 16 (fun p _ => nib_lt_16 bb p),
    List.map_congr_left fun p _ => nib_eq_div_mod bb p]
  exact ofNibsList_decomp 16 bb
    (by have h16 : (16 : Nat) ^ 16 = 2 ^ 64 := by norm_num
        omega)

/-- Decoding the encoded board reproduces every valid 4×4 grid. -/
theorem decode_encode (board : List (List Nat)) (h4 : board.length = 4)
    (hrow : ∀ row ∈ board, row.length = 4)
    (hval : ∀ r, r < 4 → ∀ c, c < 4 → gget board r c = 0 ∨
      ∃ e, 1 ≤ e ∧ e ≤ 15 ∧ gget board r c = 2 ^ e) :
    bitboard_to_board (board_to_bitboard board) = board := by
  set E : Nat → Nat := fun p =>
    if 0 < gget board (p / 4) (p % 4) then pyBitLength (gget board (p / 4) (p % 4)) - 1
    else 0 with hEdef
  have hEspec : ∀ p, p < 16 →
      (E p = 0 ∧ gget board (p / 4) (p % 4) = 0) ∨
      (1 ≤ E p ∧ E p ≤ 15 ∧ gget board (p / 4) (p % 4) = 2 ^ E p) := by
    intro p hp
    rcases hval (p / 4) (by omega) (p % 4) (by omega) with h0 | ⟨e, he1, he15, hcell⟩
    · left
      refine ⟨?_, h0⟩
      rw [hEdef]
      simp only [h0]
      simp
    · right
      have hEp : E p = e := by
        rw [hEdef]
        simp only [hcell]
        rw [if_pos (pow_pos (by norm_num : (0 : Nat) < 2) e),
          pyBitLength_two_pow e he15]
        omega
      rw [hEp]
      exact ⟨he1, he15, hcell⟩
  have hElt : ∀ p, p < 16 → E p < 16 := by
    intro p hp
    rcases hEspec p hp with ⟨h, -⟩ | ⟨-, h, -⟩ <;> omega
  have hstep : ∀ (acc : Nat), ∀ p ∈ List.range 16,
      (fun acc p =>
        let val := (board.getD (p / 4) []).getD (p % 4) 0
        if 0 < val then acc ||| ((pyBitLength val - 1) <<< (4 * p)) else acc) acc p =
      (fun acc p => acc ||| (E p <<< (4 * p))) acc p := by
    intro acc p hp
    show (if 0 < gget board (p / 4) (p % 4) then
        acc ||| ((pyBitLength (gget board (p / 4) (p % 4)) - 1) <<< (4 * p))
      else acc) = acc ||| (E p <<< (4 * p))
    by_cases h0 : 0 < gget board (p / 4) (p % 4)
    · rw [if_pos h0]
      simp only [hEdef]
      rw [if_pos h0]
    · rw [if_neg h0]
      simp only [hEdef]
      rw [if_neg h0]
      simp [Nat.zero_shiftLeft]
  have henc : board_to_bitboard board = ofNibsList ((List.range 16).map E) := by
    unfold board_to_bitboard
    rw [foldl_congr_fun (List.range 16) 0 hstep, foldl_or_shift E 16 hElt]
  have hnib : ∀ p, p < 16 → nib (board_to_bitboard board) p = E p := by
    intro p hp
    rw [henc, nib_ofNibsList _ (by
      intro a ha
      obtain ⟨q, hq, rfl⟩ := List.mem_map.mp ha
      exact hElt q (List.mem_range.mp hq)) p]
    exact map_range_getD E 16 p hp
  have hlen : (bitboard_to_board (board_to_bitboard board)).length = 4 := by
    simp [bitboard_to_board]
  apply List.ext_getElem (by rw [hlen, h4])
  intro r hr1 hr2
  have hr4 : r < 4 := by omega
  have hrowlen : board[r].length = 4 := hrow board[r] (List.getElem_mem hr2)
  have hdlen : (bitboard_to_board (board_to_bitboard board))[r].length = 4 := by
    simp [bitboard_to_board]
  apply List.ext_getElem (by rw [hdlen, hrowlen])
  intro c hc1 hc2
  have hc4 : c < 4 := by omega
  have hL : gget (bitboard_to_board (board_to_bitboard board)) r c =
      (bitboard_to_board (board_to_bitboard board))[r][c] := by
    unfold gget
    rw [show (bitboard_to_board (board_to_bitboard board)).getD r [] =
      (bitboard_to_board (board_to_bitboard board))[r] from getD_of_lt _ _ _ (by omega)]
    rw [getD_of_lt _ _ _ (by omega)]
  have hR : gget board r c = board[r][c] := by
    unfold gget
    rw [show board.getD r [] = board[r] from getD_of_lt _ _ _ (by omega)]
    rw [getD_of_lt _ _ _ (by omega)]
  rw [← hL, ← hR]
  rw [bitboard_to_board_cell _ r c hr4 hc4, hnib (r * 4 + c) (by omega)]
  have hidx1 : (r * 4 + c) / 4 = r := by omega
  have hidx2 : (r * 4 + c) % 4 = c := by omega
  rcases hEspec (r * 4 + c) (by omega) with ⟨hE0, hcell⟩ | ⟨hE1, hE15, hcell⟩
  · rw [hidx1, hidx2] at hcell
    rw [hE0, hcell]
    simp
  · rw [hidx1, hidx2] at hcell
    rw [if_pos (by omega : 0 < E (r * 4 + c)), hcell]

/-- C7: the codec round-trips: decoding the encoding is the identity on
valid 4×4 grids (cells `0` or `2^e` with `1 ≤ e ≤ 15`), and encoding the
decoding is the identity on all 64-bit bitboards. -/
theorem codec_round_trip :
    (∀ board : List (List Nat), board.length = 4 → (∀ row ∈ board, row.length = 4) →
      (∀ r, r < 4 → ∀ c, c < 4 → gget board r c = 0 ∨
        ∃ e, 1 ≤ e ∧ e ≤ 15 ∧ gget board r c = 2 ^ e) →
      bitboard_to_board (board_to_bitboard board) = board) ∧
    (∀ bb : Nat, bb < 2 ^ 64 → board_to_bitboard (bitboard_to_board bb) = bb) :=
  ⟨decode_encode, encode_decode⟩

/-- Witness for `codec_round_trip` on a concrete grid and bitboard. -/
theorem codec_round_trip_witness :
    bitboard_to_board (board_to_bitboard
        [[2, 0, 0, 0], [0, 4, 0, 0], [0, 0, 32768, 0], [0, 0, 0, 8]]) =
      [[2, 0, 0, 0], [0, 4, 0, 0], [0, 0, 32768, 0], [0, 0, 0, 8]] ∧
    board_to_bitboard (bitboard_to_board 0xFEDCBA9876543210) = 0xFEDCBA9876543210 :=
  ⟨codec_round_trip.1 _ (by decide) (by decide)
      (by
        intro r hr c hc
        interval_cases r <;> interval_cases c <;>
          first
            | exact Or.inl rfl
            | exact Or.inr ⟨1, by norm_num, by norm_num, rfl⟩
            | exact Or.inr ⟨2, by norm_num, by norm_num, rfl⟩
            | exact Or.inr ⟨3, by norm_num, by norm_num, rfl⟩
            | exact Or.inr ⟨15, by norm_num, by norm_num, rfl⟩),
   codec_round_trip.2 _ (by decide)⟩

end G2048
